import Mathlib

/-!
Verification of the drawing-canvas core of the Scalinox repository
(`src/client/src/components/DrawingCanvas.tsx`).

The development shallowly embeds the element data model, the committed-list /
history manager (`saveToHistory`, `handleUndo`, `handleRedo`, `handleClear`),
the two eraser algorithms, the drag-threshold protocol and the selection-export
handler, and proves (or refutes) the specification's claims about them.
Coordinates and sizes, `number` in the source, are modelled as rationals.
-/

/-- World point, from `interface Point { x, y }`. -/
structure Point where
  x : ℚ
  y : ℚ
  deriving DecidableEq

/-- The tool tags, from `type Tool` in `App.tsx` plus the extra `'image'` tag
used by `DrawingElement.type`. -/
inductive Tool where
  | select
  | selectionArea
  | brush
  | eraser
  | strokeEraser
  | rectangle
  | circle
  | line
  | arrow
  | text
  | image
  deriving DecidableEq

/-- From `interface TextFormat`. -/
structure TextFormat where
  font : String
  fontSize : ℚ
  bold : Bool
  italic : Bool
  underline : Bool
  strikethrough : Bool
  deriving DecidableEq

/-- From `interface DrawingElement`.  Optional fields of the source record are
`Option`s; the optional booleans default to `false`. -/
structure Element where
  type : Tool
  points : Option (List Point)
  startPoint : Option Point
  endPoint : Option Point
  color : String
  brushSize : ℚ
  opacity : ℚ
  text : Option String
  textFormat : Option TextFormat
  imageData : Option String
  width : Option ℚ
  height : Option ℚ
  id : Option String
  isTemporary : Bool
  isGeneratedAi : Bool
  deriving DecidableEq

/-- From `interface DrawingSettings` in `App.tsx`. -/
structure DrawingSettings where
  color : String
  brushSize : ℚ
  opacity : ℚ
  deriving DecidableEq

/-- The canvas' committed list and history stack: the `elements`, `history`
and `historyStep` pieces of React state in `DrawingCanvas`. -/
structure HistState where
  elements : List Element
  history : List (List Element)
  historyStep : Nat
  deriving DecidableEq

/-- The initial state: `useState([])`, `useState([])`, `useState(0)`. -/
def initState : HistState :=
  { elements := [], history := [], historyStep := 0 }

/-- A commit: `setElements(newElements)` followed by `saveToHistory`, which
drops the redo tail (`history.slice(0, historyStep + 1)`), pushes a copy of
the new list and moves the cursor to the last snapshot. -/
def commitList (L : List Element) (s : HistState) : HistState :=
  let newHistory := s.history.take (s.historyStep + 1) ++ [L]
  { elements := L, history := newHistory, historyStep := newHistory.length - 1 }

/-- `handleUndo`: guarded by `historyStep > 0`; sets
`elements := history[historyStep - 1] || []`. -/
def undo (s : HistState) : HistState :=
  if 0 < s.historyStep then
    { elements := s.history.getD (s.historyStep - 1) [],
      history := s.history,
      historyStep := s.historyStep - 1 }
  else s

/-- `handleRedo`: guarded by `historyStep < history.length - 1`; sets
`elements := history[historyStep + 1]` (in bounds under the guard). -/
def redo (s : HistState) : HistState :=
  if s.historyStep + 1 < s.history.length then
    { elements := s.history.getD (s.historyStep + 1) [],
      history := s.history,
      historyStep := s.historyStep + 1 }
  else s

/-- `handleClear`: `setElements([]); setHistory([[...elements]]);
setHistoryStep(history.length)` — the new history is the single snapshot of
the pre-clear live list, and the cursor becomes the pre-clear history length. -/
def clearCanvas (s : HistState) : HistState :=
  { elements := [], history := [s.elements], historyStep := s.history.length }

/-- One history-manager command. -/
inductive HistOp where
  | commit (L : List Element)
  | undoOp
  | redoOp
  | clearOp
  deriving DecidableEq

/-- Interpret one command on the canvas state. -/
def applyOp (s : HistState) (op : HistOp) : HistState :=
  match op with
  | .commit L => commitList L s
  | .undoOp => undo s
  | .redoOp => redo s
  | .clearOp => clearCanvas s

/-- Run a command sequence from the initial state. -/
def runOps (ops : List HistOp) : HistState :=
  ops.foldl applyOp initState

/-- Iterate a state transformer. -/
def iterOp (f : HistState → HistState) : Nat → HistState → HistState
  | 0, s => s
  | n + 1, s => iterOp f n (f s)

/-- Commit a sequence of lists in order. -/
def commitAll (Ls : List (List Element)) (s : HistState) : HistState :=
  Ls.foldl (fun t L => commitList L t) s

/-- A sample committed stroke element, used for concrete scenarios. -/
def eA : Element :=
  { type := Tool.brush, points := some [⟨0, 0⟩, ⟨1, 1⟩], startPoint := none,
    endPoint := none, color := "#000000", brushSize := 5, opacity := 1,
    text := none, textFormat := none, imageData := none, width := none,
    height := none, id := some "a", isTemporary := false, isGeneratedAi := false }

/-- A second sample element, a rectangle. -/
def eB : Element :=
  { type := Tool.rectangle, points := none, startPoint := some ⟨10, 10⟩,
    endPoint := some ⟨20, 20⟩, color := "#ff0000", brushSize := 3, opacity := 1,
    text := none, textFormat := none, imageData := none, width := none,
    height := none, id := some "b", isTemporary := false, isGeneratedAi := false }

/-- Claim C1 (code bug): `clear()` is not `commit([])`.  In the state reached
by committing `[A]` then `[A, B]`, the clear handler empties the live list but
replaces the whole history by the single snapshot `[[A, B]]` of the pre-clear
live list and sets the cursor to `2`, out of bounds of the new history;
`commit([])` would instead preserve both prior snapshots, append `[]`, and
leave the cursor on the appended snapshot. -/
theorem clear_not_commit_empty :
    clearCanvas (commitList [eA, eB] (commitList [eA] initState)) ≠
      commitList [] (commitList [eA, eB] (commitList [eA] initState)) ∧
    (clearCanvas (commitList [eA, eB] (commitList [eA] initState))).elements = [] ∧
    (clearCanvas (commitList [eA, eB] (commitList [eA] initState))).history = [[eA, eB]] ∧
    (clearCanvas (commitList [eA, eB] (commitList [eA] initState))).historyStep = 2 ∧
    (commitList [] (commitList [eA, eB] (commitList [eA] initState))).history =
      [[eA], [eA, eB], []] ∧
    (commitList [] (commitList [eA, eB] (commitList [eA] initState))).historyStep = 2 := by
  decide

/-- Claim C8: commit `[A]`, commit `[A, B]`, then `undo()` makes the live list
`[A]`, and a subsequent `redo()` makes it `[A, B]`. -/
theorem commit_undo_redo_scenario :
    (undo (commitList [eA, eB] (commitList [eA] initState))).elements = [eA] ∧
    (redo (undo (commitList [eA, eB] (commitList [eA] initState)))).elements = [eA, eB] := by
  decide

/-- Claim C2, counterexample: after `commit [A]` followed by `clear`, the
cursor is `1` while only one snapshot is stored, so the cursor does not index
a valid snapshot. -/
theorem cursor_invalid_after_clear :
    ¬ ((runOps [HistOp.commit [eA], HistOp.clearOp]).historyStep <
        (runOps [HistOp.commit [eA], HistOp.clearOp]).history.length) := by
  decide

/-- The cursor-validity invariant for the history stack. -/
def cursorValid (s : HistState) : Prop :=
  s.historyStep < s.history.length

instance : DecidablePred cursorValid := fun s =>
  inferInstanceAs (Decidable (s.historyStep < s.history.length))

lemma cursorValid_commit (L : List Element) (s : HistState) :
    cursorValid (commitList L s) := by
  unfold cursorValid commitList
  simp

lemma cursorValid_undo (s : HistState) (h : cursorValid s) :
    cursorValid (undo s) := by
  unfold cursorValid undo at *
  split
  · simp only
    omega
  · exact h

lemma cursorValid_redo (s : HistState) (h : cursorValid s) :
    cursorValid (redo s) := by
  unfold cursorValid redo at *
  split
  · simpa
  · exact h

lemma cursorValid_foldl (ops : List HistOp) : ∀ (s : HistState),
    (∀ op ∈ ops, op ≠ HistOp.clearOp) →
    ((∃ L, HistOp.commit L ∈ ops) ∨ cursorValid s) →
    cursorValid (ops.foldl applyOp s) := by
  induction ops with
  | nil =>
    intro s _ h
    rcases h with ⟨L, hL⟩ | h
    · exact absurd hL (List.not_mem_nil _)
    · exact h
  | cons op rest ih =>
    intro s hnc hd
    have hnc' : ∀ o ∈ rest, o ≠ HistOp.clearOp := fun o ho => hnc o (List.mem_cons_of_mem _ ho)
    rw [List.foldl_cons]
    cases op with
    | commit L =>
      exact ih (applyOp s (HistOp.commit L)) hnc' (Or.inr (cursorValid_commit L s))
    | undoOp =>
      rcases hd with ⟨L, hL⟩ | hgood
      · rcases List.mem_cons.mp hL with h | h
        · exact absurd h (by simp)
        · exact ih _ hnc' (Or.inl ⟨L, h⟩)
      · exact ih _ hnc' (Or.inr (cursorValid_undo s hgood))
    | redoOp =>
      rcases hd with ⟨L, hL⟩ | hgood
      · rcases List.mem_cons.mp hL with h | h
        · exact absurd h (by simp)
        · exact ih _ hnc' (Or.inl ⟨L, h⟩)
      · exact ih _ hnc' (Or.inr (cursorValid_redo s hgood))
    | clearOp =>
      exact absurd rfl (hnc HistOp.clearOp (List.mem_cons_self _ _))

/-- Claim C2 (corrected): after any sequence of commit/undo/redo commands that
contains at least one commit — `clear` excluded, since it can leave the cursor
out of range, and before the first commit there is no snapshot at all — the
active cursor indexes a valid snapshot: `historyStep < history.length`. -/
theorem cursor_valid_of_commit_no_clear (ops : List HistOp)
    (hnc : ∀ op ∈ ops, op ≠ HistOp.clearOp)
    (hc : ∃ L, HistOp.commit L ∈ ops) :
    (runOps ops).historyStep < (runOps ops).history.length :=
  cursorValid_foldl ops initState hnc (Or.inl hc)

/-- Witness for `cursor_valid_of_commit_no_clear` at the one-commit sequence. -/
theorem cursor_valid_of_commit_no_clear_witness :
    (∀ op ∈ [HistOp.commit [eA]], op ≠ HistOp.clearOp) ∧
    (runOps [HistOp.commit [eA]]).historyStep <
      (runOps [HistOp.commit [eA]]).history.length :=
  ⟨by decide,
    cursor_valid_of_commit_no_clear [HistOp.commit [eA]] (by decide)
      ⟨[eA], by decide⟩⟩

/-- Claim C3, counterexample: after the single commit `[A]`, one `undo()` is a
boundary no-op (the initial empty state was never snapshotted), so the live
list is `[A]`, not `[]` as the round-trip law as stated requires. -/
theorem undo_after_one_commit_not_empty :
    (iterOp undo 1 (commitAll [[eA]] initState)).elements = [eA] ∧
    ([eA] : List Element) ≠ [] := by
  decide

/-- Squared Euclidean distance between two points. -/
def distSq (p q : Point) : ℚ :=
  (p.x - q.x) * (p.x - q.x) + (p.y - q.y) * (p.y - q.y)

/-- The eraser hit test `Math.sqrt(distSq) < eraserSize / 2` of the source,
stated without square roots: for the real square root this comparison holds
exactly when the size is positive and `4 * distSq < size * size`. -/
def withinEraser (p q : Point) (size : ℚ) : Bool :=
  decide (0 < size) && decide (4 * distSq p q < size * size)

/-- Whether a point is inside the eraser radius of some sampled path point:
the inner `for (const eraserPoint of eraserPoints)` loops of `handleMouseUp`. -/
def erasePoint (eraserPoints : List Point) (size : ℚ) (p : Point) : Bool :=
  eraserPoints.any fun q => withinEraser p q size

/-- The segment-splitting loop of the pixel eraser (`handleMouseUp`, `eraser`
branch): points inside the radius are dropped, the accumulated run is flushed
when it has more than one point, and the trailing run is flushed at the end. -/
def splitGo (E : List Point) (size : ℚ) : List Point → List Point → List (List Point)
  | cur, [] => if 1 < cur.length then [cur] else []
  | cur, p :: rest =>
    if erasePoint E size p then
      (if 1 < cur.length then [cur] else []) ++ splitGo E size [] rest
    else
      splitGo E size (cur ++ [p]) rest

/-- All surviving segments of a stroke's point list under the pixel eraser. -/
def splitSegments (E : List Point) (size : ℚ) (pts : List Point) : List (List Point) :=
  splitGo E size [] pts

lemma modifyHead_comp (f g : List Point → List Point) (l : List (List Point)) :
    (l.modifyHead g).modifyHead f = l.modifyHead fun s => f (g s) := by
  cases l <;> simp

lemma modifyHead_nil_append (l : List (List Point)) :
    (l.modifyHead fun s => [] ++ s) = l := by
  cases l <;> simp

lemma splitGo_eq_splitOnP (E : List Point) (size : ℚ) :
    ∀ (pts cur : List Point),
      splitGo E size cur pts =
        ((pts.splitOnP (erasePoint E size)).modifyHead (cur ++ ·)).filter
          fun s => decide (1 < s.length) := by
  intro pts
  induction pts with
  | nil =>
    intro cur
    simp only [splitGo, List.splitOnP_nil, List.modifyHead, List.append_nil,
      List.filter_cons, List.filter_nil]
    by_cases hc : 1 < cur.length <;> simp [hc]
  | cons p rest ih =>
    intro cur
    rw [List.splitOnP_cons]
    by_cases hp : erasePoint E size p
    · simp only [splitGo, hp, if_true, ih [], modifyHead_nil_append]
      simp only [List.modifyHead, List.append_nil, List.filter_cons]
      by_cases hc : 1 < cur.length <;> simp [hc]
    · simp only [splitGo, hp, if_false, ih (cur ++ [p]), Bool.false_eq_true,
        modifyHead_comp]
      have harg : (fun s => cur ++ (p :: s)) = fun s => (cur ++ [p]) ++ s := by
        funext s
        simp
      rw [harg]

lemma splitSegments_eq_splitOnP (E : List Point) (size : ℚ) (pts : List Point) :
    splitSegments E size pts =
      (pts.splitOnP (erasePoint E size)).filter fun s => decide (1 < s.length) := by
  rw [splitSegments, splitGo_eq_splitOnP, modifyHead_nil_append]

/-- The whole-element test of the pixel eraser's `else` branch: a point-bearing
element is deleted when any of its points is inside the radius, otherwise an
element with a start point is deleted when its start or end point is inside. -/
def pixelShouldDelete (E : List Point) (size : ℚ) (el : Element) : Bool :=
  match el.points with
  | some pts => pts.any fun p => erasePoint E size p
  | none =>
    match el.startPoint with
    | some s =>
      E.any fun q =>
        withinEraser s q size ||
          (match el.endPoint with
           | some e2 => withinEraser e2 q size
           | none => false)
    | none => false

/-- The pixel eraser applied to one committed element (`handleMouseUp`,
`eraser` branch): eraser elements are dropped; a brush stroke with more than
one point is split into its surviving segments, the first segment keeping the
element's id (`segment === segments[0]`) and every later one receiving a fresh
id from the supply `newId`; any other element is deleted entirely when touched
and kept unchanged otherwise. -/
def pixelEraseElement (newId : Nat → String) (E : List Point) (size : ℚ)
    (el : Element) : List Element :=
  if el.type = Tool.eraser ∨ el.type = Tool.strokeEraser then []
  else
    match el.points with
    | some pts =>
      if el.type = Tool.brush ∧ 1 < pts.length then
        ((splitSegments E size pts).enum).map fun is =>
          { el with points := some is.2,
                    id := if is.1 = 0 then el.id else some (newId is.1) }
      else if pixelShouldDelete E size el then [] else [el]
    | none => if pixelShouldDelete E size el then [] else [el]

/-- Claim C4: on a stroke with more than one point the pixel eraser keeps
exactly the maximal runs of consecutive points outside the radius that have
length greater than one (`splitOnP` at the hit test, then the length filter),
each run becoming an element that inherits every attribute of the original,
the run at index `0` keeping the original id and every later run getting a
fresh one. -/
theorem pixel_eraser_splits_stroke (newId : Nat → String) (E : List Point)
    (size : ℚ) (el : Element) (pts : List Point)
    (htype : el.type = Tool.brush) (hpts : el.points = some pts)
    (hlen : 1 < pts.length) :
    pixelEraseElement newId E size el =
      (((pts.splitOnP (erasePoint E size)).filter
          fun s => decide (1 < s.length)).enum).map fun is =>
        { el with points := some is.2,
                  id := if is.1 = 0 then el.id else some (newId is.1) } := by
  unfold pixelEraseElement
  have hne : ¬(el.type = Tool.eraser ∨ el.type = Tool.strokeEraser) := by
    rw [htype]
    decide
  rw [if_neg hne]
  split
  · next pts' hp' =>
    rw [hpts] at hp'
    cases hp'
    rw [if_pos ⟨htype, hlen⟩, splitSegments_eq_splitOnP]
  · next hp' =>
    rw [hpts] at hp'
    cases hp'

/-- A fresh-id supply used in concrete scenarios. -/
def nidC : Nat → String := fun n => "g" ++ toString n

/-- Point list of the concrete stroke used in eraser scenarios. -/
def ptsC : List Point := [⟨0, 0⟩, ⟨1, 0⟩, ⟨2, 0⟩, ⟨10, 0⟩, ⟨11, 0⟩]

/-- A concrete five-point stroke. -/
def strokeC : Element :=
  { type := Tool.brush, points := some ptsC, startPoint := none,
    endPoint := none, color := "#0000ff", brushSize := 4, opacity := 1,
    text := none, textFormat := none, imageData := none, width := none,
    height := none, id := some "s", isTemporary := false, isGeneratedAi := false }

/-- A concrete eraser path hitting only the stroke's middle point. -/
def ecPath : List Point := [⟨2, 0⟩]

/-- Witness for `pixel_eraser_splits_stroke`: erasing the middle point of the
five-point stroke with radius 1 yields the two two-point runs, the first with
the original id and the second with a fresh id. -/
theorem pixel_eraser_splits_stroke_witness :
    (strokeC.type = Tool.brush ∧ strokeC.points = some ptsC ∧ 1 < ptsC.length) ∧
    pixelEraseElement nidC ecPath 2 strokeC =
      (((ptsC.splitOnP (erasePoint ecPath 2)).filter
          fun s => decide (1 < s.length)).enum).map (fun is =>
        { strokeC with points := some is.2,
                       id := if is.1 = 0 then strokeC.id else some (nidC is.1) }) :=
  ⟨⟨rfl, rfl, by decide⟩,
    pixel_eraser_splits_stroke nidC ecPath 2 strokeC ptsC rfl rfl (by decide)⟩

/-- Claim C9: a stroke none of whose points is inside the eraser radius of any
eraser-path point passes through the pixel eraser unchanged, id included. -/
theorem pixel_eraser_identity (newId : Nat → String) (E : List Point)
    (size : ℚ) (el : Element) (pts : List Point)
    (htype : el.type = Tool.brush) (hpts : el.points = some pts)
    (hfar : ∀ p ∈ pts, erasePoint E size p = false) :
    pixelEraseElement newId E size el = [el] := by
  obtain ⟨t, po, sp, ep, c, b, o, tx, tf, im, w, h0, i, tmp, ai⟩ := el
  simp only at htype hpts
  subst htype
  subst hpts
  unfold pixelEraseElement
  rw [if_neg (by decide : ¬(Tool.brush = Tool.eraser ∨ Tool.brush = Tool.strokeEraser))]
  dsimp only
  by_cases hl : 1 < pts.length
  · rw [if_pos ⟨rfl, hl⟩, splitSegments_eq_splitOnP,
      List.splitOnP_eq_single _ _ (fun x hx => by simp [hfar x hx])]
    simp [hl]
  · rw [if_neg (fun hand => hl hand.2)]
    have hdel : pixelShouldDelete E size
        ⟨Tool.brush, some pts, sp, ep, c, b, o, tx, tf, im, w, h0, i, tmp, ai⟩ = false := by
      unfold pixelShouldDelete
      exact List.any_eq_false.mpr fun x hx => by simp [hfar x hx]
    rw [hdel]
    simp

/-- Witness for `pixel_eraser_identity`: an eraser path far from the stroke
leaves it untouched. -/
theorem pixel_eraser_identity_witness :
    (strokeC.type = Tool.brush ∧ strokeC.points = some ptsC ∧
      (∀ p ∈ ptsC, erasePoint [Point.mk 100 100] 2 p = false)) ∧
    pixelEraseElement nidC [Point.mk 100 100] 2 strokeC = [strokeC] :=
  ⟨⟨rfl, rfl, by
      simp [ptsC, erasePoint, withinEraser, distSq]
      norm_num⟩,
    pixel_eraser_identity nidC [Point.mk 100 100] 2 strokeC ptsC rfl rfl (by
      simp [ptsC, erasePoint, withinEraser, distSq]
      norm_num)⟩

lemma getD_append_length (H : List (List Element)) (L : List Element) :
    (H ++ [L]).getD H.length [] = L := by
  induction H with
  | nil => rfl
  | cons a t ih =>
    simp only [List.cons_append, List.length_cons, List.getD_cons_succ]
    exact ih

lemma commitAll_go (Ls : List (List Element)) :
    ∀ (H : List (List Element)) (k : Nat), k + 1 = H.length →
      commitAll Ls ⟨H.getD k [], H, k⟩ =
        ⟨(H ++ Ls).getD ((H ++ Ls).length - 1) [], H ++ Ls, (H ++ Ls).length - 1⟩ := by
  induction Ls with
  | nil =>
    intro H k hk
    simp only [commitAll, List.foldl_nil, List.append_nil]
    have h1 : H.length - 1 = k := by omega
    rw [h1]
  | cons L Ls' ih =>
    intro H k hk
    have htake : H.take (k + 1) = H := by
      rw [hk]
      exact List.take_length H
    have h1 : commitList L ⟨H.getD k [], H, k⟩ =
        ⟨(H ++ [L]).getD H.length [], H ++ [L], H.length⟩ := by
      unfold commitList
      simp only [htake, getD_append_length, List.length_append, List.length_cons,
        List.length_nil, Nat.zero_add, Nat.add_sub_cancel]
    unfold commitAll
    rw [List.foldl_cons]
    show commitAll Ls' (commitList L ⟨H.getD k [], H, k⟩) = _
    rw [h1, ih (H ++ [L]) H.length (by simp)]
    simp

lemma commitAll_initState (L : List Element) (Ls : List (List Element)) :
    commitAll (L :: Ls) initState =
      ⟨(L :: Ls).getD ((L :: Ls).length - 1) [], L :: Ls, (L :: Ls).length - 1⟩ := by
  have h1 : commitList L initState = ⟨([L]).getD 0 [], [L], 0⟩ := by
    unfold commitList initState
    rfl
  unfold commitAll
  rw [List.foldl_cons]
  show commitAll Ls (commitList L initState) = _
  rw [h1, commitAll_go Ls [L] 0 rfl]
  simp

lemma iterOp_undo_getD (m : Nat) :
    ∀ (H : List (List Element)) (k : Nat), k < H.length →
      iterOp undo m ⟨H.getD k [], H, k⟩ = ⟨H.getD (k - m) [], H, k - m⟩ := by
  induction m with
  | zero =>
    intro H k _
    simp [iterOp]
  | succ m ih =>
    intro H k hk
    rw [iterOp]
    cases k with
    | zero =>
      have hu : undo ⟨H.getD 0 [], H, 0⟩ = ⟨H.getD 0 [], H, 0⟩ := by
        unfold undo
        simp
      rw [hu, ih H 0 hk]
      simp
    | succ j =>
      have hu : undo ⟨H.getD (j + 1) [], H, j + 1⟩ = ⟨H.getD j [], H, j⟩ := by
        unfold undo
        simp
      rw [hu, ih H j (by omega)]
      simp [Nat.succ_sub_succ]

lemma iterOp_redo_getD (m : Nat) :
    ∀ (H : List (List Element)) (k : Nat), k < H.length →
      iterOp redo m ⟨H.getD k [], H, k⟩ =
        ⟨H.getD (min (k + m) (H.length - 1)) [], H, min (k + m) (H.length - 1)⟩ := by
  induction m with
  | zero =>
    intro H k hk
    have h1 : min (k + 0) (H.length - 1) = k := by omega
    rw [h1]
    simp [iterOp]
  | succ m ih =>
    intro H k hk
    rw [iterOp]
    by_cases hg : k + 1 < H.length
    · have hr : redo ⟨H.getD k [], H, k⟩ = ⟨H.getD (k + 1) [], H, k + 1⟩ := by
        unfold redo
        simp [hg]
      rw [hr, ih H (k + 1) hg]
      have h1 : k + 1 + m = k + (m + 1) := by omega
      rw [h1]
    · have hr : redo ⟨H.getD k [], H, k⟩ = ⟨H.getD k [], H, k⟩ := by
        unfold redo
        simp [hg]
      rw [hr, ih H k hk]
      have h2 : min (k + m) (H.length - 1) = H.length - 1 := by omega
      have h3 : min (k + (m + 1)) (H.length - 1) = H.length - 1 := by omega
      rw [h2, h3]

/-- Claim C3 (corrected): the initial empty state is never stored as a
snapshot, so after N commits, N applications of `undo()` leave the live list
equal to the FIRST committed list (the final `undo` is a boundary no-op), not
the empty list; N applications of `redo()` afterwards do restore the final
committed list. -/
theorem undo_redo_roundtrip (Ls : List (List Element)) (h : Ls ≠ []) :
    (iterOp undo Ls.length (commitAll Ls initState)).elements = Ls.getD 0 [] ∧
    (iterOp redo Ls.length
        (iterOp undo Ls.length (commitAll Ls initState))).elements =
      Ls.getD (Ls.length - 1) [] := by
  obtain ⟨L, Ls', rfl⟩ : ∃ L Ls', Ls = L :: Ls' := by
    cases Ls with
    | nil => exact absurd rfl h
    | cons a t => exact ⟨a, t, rfl⟩
  have hlen : (L :: Ls').length - 1 < (L :: Ls').length := by simp
  rw [commitAll_initState, iterOp_undo_getD _ _ _ hlen]
  have hz : (L :: Ls').length - 1 - (L :: Ls').length = 0 := by omega
  rw [hz]
  refine ⟨rfl, ?_⟩
  rw [iterOp_redo_getD _ _ 0 (by simp)]
  have h1 : min (0 + (L :: Ls').length) ((L :: Ls').length - 1) =
      (L :: Ls').length - 1 := by omega
  rw [h1]

/-- Witness for `undo_redo_roundtrip` at the two-commit sequence
`[[A], [A, B]]`. -/
theorem undo_redo_roundtrip_witness :
    ([[eA], [eA, eB]] : List (List Element)) ≠ [] ∧
    (iterOp undo 2 (commitAll [[eA], [eA, eB]] initState)).elements = [eA] ∧
    (iterOp redo 2 (iterOp undo 2 (commitAll [[eA], [eA, eB]] initState))).elements =
      [eA, eB] := by
  refine ⟨by decide, ?_⟩
  have h := undo_redo_roundtrip [[eA], [eA, eB]] (by decide)
  simpa using h

/-- The intersection test of the stroke eraser (`handleMouseUp`,
`stroke-eraser` branch): a point-bearing element intersects when any of its
points is inside the radius of some eraser-path point; otherwise an element
with a start point intersects when its start or end point is inside. -/
def strokeIntersects (E : List Point) (size : ℚ) (el : Element) : Bool :=
  match el.points with
  | some pts => pts.any fun p => erasePoint E size p
  | none =>
    match el.startPoint with
    | some s =>
      E.any fun q =>
        withinEraser s q size ||
          (match el.endPoint with
           | some e2 => withinEraser e2 q size
           | none => false)
    | none => false

/-- The stroke eraser over the committed list: the `elements.filter` of
`handleMouseUp` that drops eraser elements and every intersecting element. -/
def strokeErase (E : List Point) (size : ℚ) (els : List Element) : List Element :=
  els.filter fun el =>
    if el.type = Tool.eraser ∨ el.type = Tool.strokeEraser then false
    else ! strokeIntersects E size el

/-- Modelled from the spec's words: an element's "defining points" are "its
path points, or its anchor/opposite points".  Comparison definition for the
stroke-eraser policy claim. -/
def specDefiningPoints (el : Element) : List Point :=
  match el.points with
  | some ps => ps
  | none =>
    match el.startPoint with
    | some s =>
      s :: (match el.endPoint with
            | some e2 => [e2]
            | none => [])
    | none => []

lemma any_or_distrib (l : List Point) (f g : Point → Bool) :
    (l.any fun x => f x || g x) = (l.any f || l.any g) := by
  induction l with
  | nil => rfl
  | cons a t ih =>
    cases hfa : f a <;> cases hga : g a <;>
      simp [List.any_cons, hfa, hga, ih]

lemma strokeIntersects_eq_defining (E : List Point) (size : ℚ) (el : Element) :
    strokeIntersects E size el =
      (specDefiningPoints el).any fun p => erasePoint E size p := by
  unfold strokeIntersects specDefiningPoints
  cases el.points with
  | some pts => rfl
  | none =>
    cases el.startPoint with
    | none => rfl
    | some s =>
      cases el.endPoint with
      | none => simp [erasePoint]
      | some e2 =>
        simp only [List.any_cons, List.any_nil, Bool.or_false, erasePoint]
        rw [any_or_distrib]

/-- Claim C5: on a committed list containing no (never-committed) eraser
elements, the stroke eraser keeps exactly the elements none of whose defining
points — path points, or anchor/opposite points — is inside the eraser radius
of any eraser-path point, and keeps them unchanged; every element with such a
point is deleted in its entirety. -/
theorem stroke_eraser_policy (E : List Point) (size : ℚ) (els : List Element)
    (h : ∀ el ∈ els, el.type ≠ Tool.eraser ∧ el.type ≠ Tool.strokeEraser) :
    strokeErase E size els =
      els.filter fun el =>
        ! (specDefiningPoints el).any fun p => erasePoint E size p := by
  unfold strokeErase
  apply List.filter_congr
  intro el hel
  rw [if_neg]
  · rw [strokeIntersects_eq_defining]
  · rcases h el hel with ⟨h1, h2⟩
    rintro (hc | hc)
    · exact h1 hc
    · exact h2 hc

/-- Witness for `stroke_eraser_policy` on the list `[A, B]` with an eraser
path at the rectangle's anchor. -/
theorem stroke_eraser_policy_witness :
    (∀ el ∈ [eA, eB], el.type ≠ Tool.eraser ∧ el.type ≠ Tool.strokeEraser) ∧
    strokeErase [⟨10, 10⟩] 4 [eA, eB] =
      ([eA, eB].filter fun el =>
        ! (specDefiningPoints el).any fun p => erasePoint [⟨10, 10⟩] 4 p) :=
  ⟨by decide, stroke_eraser_policy [⟨10, 10⟩] 4 [eA, eB] (by decide)⟩

/-- The provisional element built by the `stroke-eraser` branch of
`handleMouseDown`: note `brushSize: settings.brushSize * 2`. -/
def mkStrokeEraserElement (settings : DrawingSettings) (point : Point)
    (gid : String) : Element :=
  { type := Tool.strokeEraser, points := some [point], startPoint := none,
    endPoint := none, color := settings.color,
    brushSize := settings.brushSize * 2, opacity := 1, text := none,
    textFormat := none, imageData := none, width := none, height := none,
    id := some gid, isTemporary := false, isGeneratedAi := false }

/-- The provisional element built by the `brush`/`eraser` branch of
`handleMouseDown`: `brushSize: settings.brushSize`. -/
def mkEraserElement (settings : DrawingSettings) (point : Point)
    (gid : String) : Element :=
  { type := Tool.eraser, points := some [point], startPoint := none,
    endPoint := none, color := settings.color,
    brushSize := settings.brushSize, opacity := settings.opacity, text := none,
    textFormat := none, imageData := none, width := none, height := none,
    id := some gid, isTemporary := false, isGeneratedAi := false }

/-- Claim C10: the provisional stroke-eraser element carries twice the
configured brush size, so its hit test fires exactly on points strictly within
the full configured brush size of an eraser-path point, while the pixel
eraser's provisional element carries the configured brush size and its hit
test fires on points strictly within half the configured brush size — the
stroke policy's effective radius is double the pixel policy's. -/
theorem stroke_eraser_double_radius (settings : DrawingSettings)
    (pt p q : Point) (gid : String) :
    (mkStrokeEraserElement settings pt gid).brushSize = 2 * settings.brushSize ∧
    withinEraser p q (mkStrokeEraserElement settings pt gid).brushSize =
      (decide (0 < settings.brushSize) &&
        decide (distSq p q < settings.brushSize * settings.brushSize)) ∧
    (mkEraserElement settings pt gid).brushSize = settings.brushSize ∧
    withinEraser p q (mkEraserElement settings pt gid).brushSize =
      (decide (0 < settings.brushSize) &&
        decide (distSq p q <
          (settings.brushSize / 2) * (settings.brushSize / 2))) := by
  refine ⟨by unfold mkStrokeEraserElement; ring, ?_, rfl, ?_⟩
  · unfold withinEraser mkStrokeEraserElement
    have e1 : decide ((0 : ℚ) < settings.brushSize * 2) =
        decide (0 < settings.brushSize) := by
      apply decide_eq_decide.mpr
      constructor <;> intro hb <;> linarith
    have e2 : decide (4 * distSq p q <
          settings.brushSize * 2 * (settings.brushSize * 2)) =
        decide (distSq p q < settings.brushSize * settings.brushSize) := by
      apply decide_eq_decide.mpr
      constructor <;> intro hb <;> nlinarith [hb]
    rw [e1, e2]
  · unfold withinEraser mkEraserElement
    have e3 : decide (4 * distSq p q < settings.brushSize * settings.brushSize) =
        decide (distSq p q <
          (settings.brushSize / 2) * (settings.brushSize / 2)) := by
      apply decide_eq_decide.mpr
      have hb : (settings.brushSize / 2) * (settings.brushSize / 2) =
          settings.brushSize * settings.brushSize / 4 := by ring
      rw [hb]
      constructor <;> intro hlt <;> linarith
    rw [e3]

/-- The pieces of React state involved in a select-tool drag, together with
the history stack mutated on release. -/
structure DragState where
  elements : List Element
  selectedElementId : Option String
  isDragging : Bool
  dragStart : Option Point
  hasDragStarted : Bool
  showTextPanel : Bool
  history : List (List Element)
  historyStep : Nat
  deriving DecidableEq

/-- Translate one element by `(dx, dy)`: the start/end points and every path
point are moved, as in the dragging branch of `handleMouseMove`. -/
def moveElement (dx dy : ℚ) (el : Element) : Element :=
  { el with
    startPoint := el.startPoint.map fun p => ⟨p.x + dx, p.y + dy⟩,
    endPoint := el.endPoint.map fun p => ⟨p.x + dx, p.y + dy⟩,
    points := el.points.map fun ps => ps.map fun p => ⟨p.x + dx, p.y + dy⟩ }

/-- The dragging branch of `handleMouseMove`: while the drag has not started,
a move within Euclidean distance 3 of the drag start (`distance < 3`, i.e.
`distSq < 9`) is ignored; otherwise the selected element is translated by the
delta since the last tracked position and the drag start is re-anchored. -/
def dragMove (s : DragState) (pos : Point) : DragState :=
  match s.isDragging, s.selectedElementId, s.dragStart with
  | true, some selId, some start =>
    let dx := pos.x - start.x
    let dy := pos.y - start.y
    if s.hasDragStarted then
      { s with
        elements := s.elements.map fun el =>
          if el.id = some selId then moveElement dx dy el else el,
        dragStart := some pos }
    else if decide (distSq pos start < 9) then s
    else
      { s with
        hasDragStarted := true,
        showTextPanel := false,
        elements := s.elements.map fun el =>
          if el.id = some selId then moveElement dx dy el else el,
        dragStart := some pos }
  | _, _, _ => s

/-- The dragging branch of `handleMouseUp`: the drag bookkeeping is reset, and
`saveToHistory(elements)` runs only when an element is selected and the
3-unit threshold had been exceeded (`hasDragStarted`). -/
def dragUp (s : DragState) : DragState :=
  if s.isDragging then
    if s.selectedElementId.isSome && s.hasDragStarted then
      let newHistory := s.history.take (s.historyStep + 1) ++ [s.elements]
      { s with isDragging := false, dragStart := none, hasDragStarted := false,
               history := newHistory, historyStep := newHistory.length - 1 }
    else
      { s with isDragging := false, dragStart := none, hasDragStarted := false }
  else s

lemma dragMove_small (s : DragState) (press pos : Point)
    (hstart : s.dragStart = some press) (hhds : s.hasDragStarted = false)
    (hlt : distSq pos press < 9) : dragMove s pos = s := by
  cases hd : s.isDragging <;> cases hsel : s.selectedElementId <;>
    simp [dragMove, hd, hsel, hstart, hhds, hlt]

lemma foldl_dragMove_small (s : DragState) (press : Point)
    (hstart : s.dragStart = some press) (hhds : s.hasDragStarted = false) :
    ∀ ps : List Point, (∀ pos ∈ ps, distSq pos press < 9) →
      ps.foldl dragMove s = s := by
  intro ps
  induction ps with
  | nil => intro _; rfl
  | cons p t ih =>
    intro hall
    rw [List.foldl_cons,
      dragMove_small s press p hstart hhds (hall p (List.mem_cons_self p t))]
    exact ih fun pos hpos => hall pos (List.mem_cons_of_mem p hpos)

/-- Claim C6: during a candidate drag, if every pointer position stays within
Euclidean distance 3 of the press point then no state changes at all — in
particular no element is mutated — and the release pushes no history entry;
and whenever the release does change the history stack, some pointer position
must have reached distance 3 from the press point.  A plain click is the
no-move instance of the first part. -/
theorem drag_threshold (s0 : DragState) (press : Point) (ps : List Point)
    (hdrag : s0.isDragging = true) (hstart : s0.dragStart = some press)
    (hhds : s0.hasDragStarted = false) :
    ((∀ pos ∈ ps, distSq pos press < 9) →
      ps.foldl dragMove s0 = s0 ∧
      (dragUp (ps.foldl dragMove s0)).elements = s0.elements ∧
      (dragUp (ps.foldl dragMove s0)).history = s0.history ∧
      (dragUp (ps.foldl dragMove s0)).historyStep = s0.historyStep) ∧
    ((dragUp (ps.foldl dragMove s0)).history ≠ s0.history →
      ∃ pos ∈ ps, 9 ≤ distSq pos press) := by
  constructor
  · intro hall
    have hfold := foldl_dragMove_small s0 press hstart hhds ps hall
    rw [hfold]
    have hup : dragUp s0 =
        { s0 with isDragging := false, dragStart := none, hasDragStarted := false } := by
      unfold dragUp
      rw [if_pos hdrag, if_neg]
      simp [hhds]
    rw [hup]
    exact ⟨rfl, rfl, rfl, rfl⟩
  · intro hne
    by_contra hno
    push_neg at hno
    have hfold := foldl_dragMove_small s0 press hstart hhds ps hno
    rw [hfold] at hne
    apply hne
    unfold dragUp
    rw [if_pos hdrag, if_neg]
    simp [hhds]

/-- A concrete candidate-drag state over the sample stroke. -/
def dragS0 : DragState :=
  { elements := [eA], selectedElementId := some "a", isDragging := true,
    dragStart := some ⟨0, 0⟩, hasDragStarted := false, showTextPanel := false,
    history := [[eA]], historyStep := 0 }

/-- Two pointer positions that stay within distance 3 of the press point. -/
def dragPs : List Point := [⟨1, 0⟩, ⟨2, 2⟩]

/-- Witness for `drag_threshold`: two sub-threshold moves and a release leave
the elements and the history stack untouched. -/
theorem drag_threshold_witness :
    (dragS0.isDragging = true ∧ dragS0.dragStart = some ⟨0, 0⟩ ∧
      dragS0.hasDragStarted = false ∧
      (∀ pos ∈ dragPs, distSq pos ⟨0, 0⟩ < 9)) ∧
    (dragPs.foldl dragMove dragS0 = dragS0 ∧
      (dragUp (dragPs.foldl dragMove dragS0)).elements = dragS0.elements ∧
      (dragUp (dragPs.foldl dragMove dragS0)).history = dragS0.history ∧
      (dragUp (dragPs.foldl dragMove dragS0)).historyStep = dragS0.historyStep) :=
  ⟨⟨rfl, rfl, rfl, by norm_num [dragPs, distSq]⟩,
    (drag_threshold dragS0 ⟨0, 0⟩ dragPs rfl rfl rfl).1
      (by norm_num [dragPs, distSq])⟩

/-- The selection rectangle: two captured world points (the source's `start`
and `end` fields; `end` is a reserved word here). -/
structure SelectionRect where
  start : Point
  stop : Point
  deriving DecidableEq

/-- The environment `handleGetSelection` reads: the current selection
rectangle, whether `canvasRef.current` is non-null, whether the canvas' 2d
context is available, whether the off-screen buffer's 2d context can be
created, and the encoded JPEG data URL the blit would produce. -/
structure CanvasEnv where
  selectionRect : Option SelectionRect
  canvasAvailable : Bool
  ctxAvailable : Bool
  tempCtxAvailable : Bool
  dataURL : String
  deriving DecidableEq

/-- `handleGetSelection`, recorded as the list of callback invocations it
performs: `callback(null)` when there is no selection or no canvas, when the
canvas context is missing, or when the off-screen buffer context cannot be
created; otherwise `callback(dataURL)` once. -/
def handleGetSelection (env : CanvasEnv) : List (Option String) :=
  if env.selectionRect.isNone || !env.canvasAvailable then [none]
  else if !env.ctxAvailable then [none]
  else if env.tempCtxAvailable then [some env.dataURL]
  else [none]

/-- Claim C7: every crop-export request invokes its callback exactly once, and
whenever there is no selection rectangle or any backing surface/buffer context
cannot be created, the single invocation carries no result (null) instead of
an error. -/
theorem crop_export_single_callback (env : CanvasEnv) :
    (handleGetSelection env).length = 1 ∧
    ((env.selectionRect = none ∨ env.canvasAvailable = false ∨
        env.ctxAvailable = false ∨ env.tempCtxAvailable = false) →
      handleGetSelection env = [none]) := by
  obtain ⟨sel, ca, cx, tc, du⟩ := env
  cases sel <;> cases ca <;> cases cx <;> cases tc <;>
    simp [handleGetSelection]

/-- Witness for `crop_export_single_callback` with no selection rectangle. -/
theorem crop_export_single_callback_witness :
    (handleGetSelection ⟨none, true, true, true, "url"⟩).length = 1 ∧
    handleGetSelection ⟨none, true, true, true, "url"⟩ = [none] :=
  ⟨(crop_export_single_callback ⟨none, true, true, true, "url"⟩).1,
    (crop_export_single_callback ⟨none, true, true, true, "url"⟩).2 (Or.inl rfl)⟩
